import Mathlib

/-!
Shallow embedding of the Contact-Link local CardDAV server
(src/local_carddav_server.py) and verification of its specification.

The cache directory is modelled as an association list from file name
(identifier plus the ".vcf" suffix) to payload text; network calls made
through the requests session are modelled by explicit outcome values
(a response with status and body, or a raised transport exception).
-/

/-- The record store: the cache directory, one entry per file, keyed by the
file name and holding the raw payload text. -/
abbrev Store := List (String × String)

/-- Reading a cache file: the payload stored under the given file name. -/
def Store.read : Store → String → Option String
  | [], _ => none
  | (k, v) :: rest, name => if k = name then some v else Store.read rest name

/-- Writing a cache file (write_text): replace the payload in place when the
name already exists, otherwise create the entry. -/
def Store.write : Store → String → String → Store
  | [], name, v => [(name, v)]
  | (k, w) :: rest, name, v =>
    if k = name then (k, v) :: rest else (k, w) :: Store.write rest name v

/-- The file names present in the cache directory. -/
def Store.keys (s : Store) : List String := s.map Prod.fst

/-- Python truthiness of an optional environment string: an unset variable
(None) and the empty string are both falsy. -/
def truthy : Option String → Bool
  | none => false
  | some s => !(s == "")

/-- Python equality between a supplied string and an optional configured
value: a string never equals an unset (None) value. -/
def pyEq (s : String) : Option String → Bool
  | none => false
  | some t => s == t

/-- check_auth from the source: accept outright when both local credentials
are falsy, otherwise compare the supplied pair against the configured pair. -/
def check_auth (localU localP : Option String) (username password : String) : Bool :=
  if !truthy localU && !truthy localP then true
  else pyEq username localU && pyEq password localP

/-- The 401 challenge response produced by authenticate(): the status code
and the WWW-Authenticate header value. -/
def authenticate : Nat × String := (401, "Basic realm=\"Login Required\"")

/-- The requires_auth decorator applied to every route: none means the
wrapped handler runs, some r means the challenge response r is returned
instead of running the handler. -/
def requires_auth (localU localP : Option String)
    (auth : Option (String × String)) : Option (Nat × String) :=
  if !truthy localU && !truthy localP then none
  else
    match auth with
    | none => some authenticate
    | some (u, p) => if check_auth localU localP u p then none else some authenticate

/-- Outcome of one HTTP request made through the requests session: a
response carrying a status and body text, or a raised transport exception. -/
inductive HttpResult where
  | ok (status : Nat) (body : String)
  | err
  deriving DecidableEq

/-- Outcome of the session.put call inside put_contact. -/
inductive PushOutcome where
  | resp (status : Nat)
  | raise
  deriving DecidableEq

/-- Result of the PUT handler as seen by the protocol client: the 204
no-content success, or the framework error response produced when the
handler raises. -/
inductive PutResult where
  | noContent
  | serverError
  deriving DecidableEq

/-- put_contact: write the payload to the cache file, then, when an origin
URL is configured, push it to the origin; a push that raises propagates out
of the handler (the local write is kept), a push that returns any status is
ignored and 204 is returned. -/
def put_contact (carddavUrl : Option String) (push : PushOutcome)
    (store : Store) (uid payload : String) : Store × PutResult :=
  let store1 := Store.write store (uid ++ ".vcf") payload
  if truthy carddavUrl then
    match push with
    | PushOutcome.raise => (store1, PutResult.serverError)
    | PushOutcome.resp _ => (store1, PutResult.noContent)
  else (store1, PutResult.noContent)

/-- Result of the GET handler: the payload served by send_file, or the
abort(404) outcome. -/
inductive GetResult where
  | payload (text : String)
  | notFound
  deriving DecidableEq

/-- get_contact: serve the cache file when it exists, else abort(404). -/
def get_contact (store : Store) (uid : String) : GetResult :=
  match Store.read store (uid ++ ".vcf") with
  | some t => GetResult.payload t
  | none => GetResult.notFound

/-- Protocol status carried by the GET handler result. -/
def get_status (store : Store) (uid : String) : Nat :=
  match get_contact store uid with
  | GetResult.payload _ => 200
  | GetResult.notFound => 404

/-- The regex class \w restricted to ASCII: Python's \w on a str pattern
is Unicode-aware and agrees with this predicate exactly on the ASCII
characters (alphanumerics and the underscore). -/
def isWordChar (c : Char) : Bool := c.isAlphanum || c == '_'

/-- Split a maximal run of word characters off the front of the text. The
word-character class w is a parameter: Python's \w covers Unicode word
characters beyond ASCII, for which no classification table is available
here, so the scanner is developed for an arbitrary class and instantiated
with the ASCII restriction where the input is ASCII. -/
def takeWordW (w : Char → Bool) : List Char → List Char × List Char
  | [] => ([], [])
  | c :: cs =>
    if w c then
      let p := takeWordW w cs
      (c :: p.1, p.2)
    else ([], c :: cs)

/-- Match a literal list of characters at the front, returning the rest. -/
def stripLit : List Char → List Char → Option (List Char)
  | [], cs => some cs
  | _ :: _, [] => none
  | l :: ls, c :: cs => if c = l then stripLit ls cs else none

/-- The characters of the literal piece "href>". -/
def hrefGt : List Char := ['h', 'r', 'e', 'f', '>']

/-- Match the tag piece (?:\w+:)?href> of the regex: first the namespaced
form (a maximal word run, a colon, then the literal), else the bare form. -/
def matchTagW (w : Char → Bool) (cs : List Char) : Option (List Char) :=
  let p := takeWordW w cs
  match p.1, p.2 with
  | _ :: _, ':' :: r =>
    match stripLit hrefGt r with
    | some rest => some rest
    | none => stripLit hrefGt cs
  | _, _ => stripLit hrefGt cs

/-- Split a maximal run of characters other than < off the front. -/
def takeNonLt : List Char → List Char × List Char
  | [] => ([], [])
  | c :: cs =>
    if c = '<' then ([], c :: cs)
    else
      let p := takeNonLt cs
      (c :: p.1, p.2)

/-- The characters of the suffix ".vcf". -/
def vcfSuffix : List Char := ['.', 'v', 'c', 'f']

/-- Whether a string ends in ".vcf". -/
def endsWithVcf (s : String) : Bool := vcfSuffix.isSuffixOf s.data

/-- Match the closing tag </(?:\w+:)?href> at the front. -/
def matchCloseW (w : Char → Bool) : List Char → Option (List Char)
  | c :: c2 :: r => if c = '<' ∧ c2 = '/' then matchTagW w r else none
  | _ => none

/-- Try to match the whole pattern <(?:\w+:)?href>([^<]+\.vcf)</(?:\w+:)?href>
at this position; on success return the captured href and the remainder.
The capture [^<]+\.vcf must cover the entire run of characters other
than < (the piece after the group starts with <), so it succeeds exactly
when that run ends in ".vcf" preceded by at least one more character,
i.e. when the run is longer than the four suffix characters. -/
def matchHrefAtW (w : Char → Bool) (cs : List Char) : Option (String × List Char) :=
  match cs with
  | [] => none
  | c :: r =>
    if c = '<' then
      match matchTagW w r with
      | none => none
      | some afterOpen =>
        let p := takeNonLt afterOpen
        if 4 < p.1.length ∧ vcfSuffix.isSuffixOf p.1 then
          match matchCloseW w p.2 with
          | some rest => some (String.mk p.1, rest)
          | none => none
        else none
    else none

/-- re.findall scanning: leftmost, non-overlapping matches, advancing one
character past positions with no match; fuelled by the text length, which
suffices because every step consumes at least one character. -/
def scanHrefsW (w : Char → Bool) : Nat → List Char → List String
  | 0, _ => []
  | fuel + 1, cs =>
    match cs with
    | [] => []
    | c :: rest =>
      match matchHrefAtW w (c :: rest) with
      | some pr => pr.1 :: scanHrefsW w fuel pr.2
      | none => scanHrefsW w fuel rest

/-- The hrefs the regex extracts from a PROPFIND body under the
word-character class w. -/
def findHrefsW (w : Char → Bool) (body : String) : List String :=
  scanHrefsW w body.data.length body.data

/-- The hrefs sync_remote extracts from the PROPFIND response body, with
the word-character class instantiated to its ASCII restriction; the
instantiation is exact for bodies made of ASCII characters (proved below
as an agreement theorem quantified over the class). -/
def findHrefs (body : String) : List String := findHrefsW isWordChar body

/-- Path(href).name: the portion of the href after the last slash. -/
def fileName (href : String) : String :=
  String.mk ((href.data.reverse.takeWhile (fun c => !(c = '/'))).reverse)

/-- The fetch loop of sync_remote: fetch each href in order; write the cache
file exactly when the status is 200; a raised transport error is caught by
the surrounding except block and aborts the remaining hrefs while keeping
the writes already made. -/
def syncLoop (fetch : String → HttpResult) : List String → Store → Store
  | [], s => s
  | href :: rest, s =>
    match fetch href with
    | HttpResult.err => s
    | HttpResult.ok status text =>
      if status = 200 then syncLoop fetch rest (Store.write s (fileName href) text)
      else syncLoop fetch rest s

/-- sync_remote: skip when no origin URL is configured; issue the PROPFIND
(discover); on a raised transport error or a non-2xx status leave the store
alone; otherwise extract the hrefs and run the fetch loop. -/
def sync_remote (carddavUrl : Option String) (discover : HttpResult)
    (fetch : String → HttpResult) (store : Store) : Store :=
  if !truthy carddavUrl then store
  else
    match discover with
    | HttpResult.err => store
    | HttpResult.ok status body =>
      if status < 200 ∨ 300 ≤ status then store
      else syncLoop fetch (findHrefs body) store

/-- One response element of the listing, for one cache file name. -/
def listingEntry (name : String) : String :=
  "<response><href>/" ++ name ++ "</href></response>"

/-- The response elements produced by iterating CACHE_DIR.glob of *.vcf:
one element per cache file whose name ends in ".vcf". -/
def listing_entries (s : Store) : List String :=
  (s.filter (fun kv => endsWithVcf kv.1)).map (fun kv => listingEntry kv.1)

/-- build_listing: the multistatus header, the response elements, and the
footer, joined with newlines. -/
def build_listing (s : Store) : String :=
  String.intercalate "\n"
    (["<?xml version=\"1.0\"?><multistatus xmlns=\"DAV:\">"]
      ++ listing_entries s ++ ["</multistatus>"])

/-- propfind_root: the 207 multi-status response carrying the listing. -/
def propfind_root (s : Store) : Nat × String := (207, build_listing s)

/-- Spec-side step function, written after the spec sentence: for one href,
write the fetched payload keyed by the file-name portion exactly when the
fetch status is 200, otherwise leave the store alone. -/
def writeOn200 (fetch : String → HttpResult) (s : Store) (href : String) : Store :=
  match fetch href with
  | HttpResult.ok status text =>
    if status = 200 then Store.write s (fileName href) text else s
  | HttpResult.err => s

/-- Spec-side, written after the spec sentence: the leading part of the
listing before the first transport error, i.e. the hrefs a run actually
processes. -/
def processedHrefs (fetch : String → HttpResult) (hs : List String) : List String :=
  hs.takeWhile (fun h =>
    match fetch h with
    | HttpResult.err => false
    | HttpResult.ok _ _ => true)

/-- The sequence of cache writes one fetch loop performs. -/
def syncWrites (fetch : String → HttpResult) : List String → List (String × String)
  | [] => []
  | href :: rest =>
    match fetch href with
    | HttpResult.err => []
    | HttpResult.ok status text =>
      if status = 200 then (fileName href, text) :: syncWrites fetch rest
      else syncWrites fetch rest

/-- Replay a sequence of writes against a store. -/
def applyWrites (W : List (String × String)) (s : Store) : Store :=
  W.foldl (fun st kv => Store.write st kv.1 kv.2) s

/-- The last value a write sequence assigns to a name, if any. -/
def lastVal : List (String × String) → String → Option String
  | [], _ => none
  | (k, v) :: rest, name =>
    match lastVal rest name with
    | some w => some w
    | none => if k = name then some v else none

theorem store_read_write (s : Store) (k v nm : String) :
    Store.read (Store.write s k v) nm = if k = nm then some v else Store.read s nm := by
  induction s with
  | nil => simp [Store.write, Store.read]
  | cons a t ih =>
    obtain ⟨ak, av⟩ := a
    by_cases h1 : ak = k
    · subst h1
      by_cases h2 : ak = nm <;> simp [Store.write, Store.read, h2]
    · by_cases h2 : ak = nm
      · subst h2
        have h3 : ¬ k = ak := fun hh => h1 hh.symm
        simp [Store.write, Store.read, h1, h3]
      · simp [Store.write, Store.read, h1, h2, ih]

theorem store_read_not_mem (s : Store) (nm : String) (h : nm ∉ Store.keys s) :
    Store.read s nm = none := by
  induction s with
  | nil => rfl
  | cons a t ih =>
    obtain ⟨ak, av⟩ := a
    simp only [Store.keys, List.map_cons, List.mem_cons] at h
    push_neg at h
    rw [Store.read, if_neg (fun hh => h.1 hh.symm)]
    exact ih h.2

/-- C2: for every identifier and payload and under every origin
configuration (unconfigured, push succeeding, push failing with any status,
push raising), put_contact followed by get_contact on the same identifier
returns exactly the written payload. -/
theorem read_after_write (url : Option String) (push : PushOutcome)
    (s : Store) (uid payload : String) :
    get_contact (put_contact url push s uid payload).1 uid = GetResult.payload payload := by
  have h1 : (put_contact url push s uid payload).1 = Store.write s (uid ++ ".vcf") payload := by
    unfold put_contact
    cases truthy url <;> cases push <;> simp
  unfold get_contact
  rw [h1, store_read_write]
  simp

/-- C8: reading an identifier absent from the store yields the distinct
not-found outcome (status 404), not an error, and the handler does not
raise (the embedding is total). -/
theorem unknown_read_notfound (s : Store) (uid : String)
    (h : Store.read s (uid ++ ".vcf") = none) :
    get_contact s uid = GetResult.notFound
    ∧ get_status s uid = 404
    ∧ (∀ t, GetResult.notFound ≠ GetResult.payload t) := by
  have h1 : get_contact s uid = GetResult.notFound := by simp [get_contact, h]
  exact ⟨h1, by simp [get_status, h1], fun t h2 => GetResult.noConfusion h2⟩

theorem unknown_read_notfound_witness :
    get_contact [] "nonexistent" = GetResult.notFound
    ∧ get_status [] "nonexistent" = 404
    ∧ (∀ t, GetResult.notFound ≠ GetResult.payload t) :=
  unknown_read_notfound [] "nonexistent" rfl

/-- C3: when discovery raises a transport error or returns a non-2xx
status, sync_remote leaves the store exactly as it was (and, the embedding
being total, signals no error to its caller). -/
theorem sync_failsoft_discovery (url : Option String) (fetch : String → HttpResult)
    (s : Store) (d : HttpResult)
    (h : d = HttpResult.err
      ∨ ∃ status body, d = HttpResult.ok status body ∧ (status < 200 ∨ 300 ≤ status)) :
    sync_remote url d fetch s = s := by
  rcases h with h | ⟨st, body, rfl, hst⟩
  · subst h
    unfold sync_remote
    cases truthy url <;> simp
  · unfold sync_remote
    cases truthy url <;> simp [hst]

theorem sync_failsoft_discovery_witness :
    sync_remote (some "http://origin/") HttpResult.err
      (fun _ => HttpResult.ok 200 "X") [("a.vcf", "A")] = [("a.vcf", "A")] :=
  sync_failsoft_discovery (some "http://origin/") (fun _ => HttpResult.ok 200 "X")
    [("a.vcf", "A")] HttpResult.err (Or.inl rfl)

/-- C1 counterexample: with an origin configured and a push that raises a
transport error, the PUT handler does not return the no-content success;
the exception escapes and the client sees the framework error response
(the local write is nevertheless kept). -/
theorem put_raise_counterexample :
    put_contact (some "http://origin/") PushOutcome.raise [] "alice" "BEGIN:VCARD"
      = ([("alice.vcf", "BEGIN:VCARD")], PutResult.serverError)
    ∧ PutResult.serverError ≠ PutResult.noContent := by
  exact ⟨by decide, by decide⟩

/-- C1 amended: put_contact stores the payload locally before attempting
the push, and this local write is never rolled back; a push that completes
with any HTTP status, and any request when no origin is configured, yields
the 204 no-content result; but the handler produces an error response
exactly when an origin is configured and the push raises a transport
error. -/
theorem put_local_write_push_advisory (url : Option String) (push : PushOutcome)
    (s : Store) (uid payload : String) :
    (put_contact url push s uid payload).1 = Store.write s (uid ++ ".vcf") payload
    ∧ Store.read (put_contact url push s uid payload).1 (uid ++ ".vcf") = some payload
    ∧ (∀ st, push = PushOutcome.resp st →
        (put_contact url push s uid payload).2 = PutResult.noContent)
    ∧ (truthy url = false → (put_contact url push s uid payload).2 = PutResult.noContent)
    ∧ ((put_contact url push s uid payload).2 = PutResult.serverError
        ↔ (truthy url = true ∧ push = PushOutcome.raise)) := by
  have h1 : (put_contact url push s uid payload).1 = Store.write s (uid ++ ".vcf") payload := by
    unfold put_contact
    cases truthy url <;> cases push <;> simp
  refine ⟨h1, ?_, ?_, ?_, ?_⟩
  · rw [h1, store_read_write]
    simp
  · intro st hp
    subst hp
    unfold put_contact
    cases truthy url <;> simp
  · intro hu
    unfold put_contact
    rw [hu]
    simp
  · unfold put_contact
    cases htr : truthy url <;> cases push <;> simp

theorem put_local_write_push_advisory_witness :
    (put_contact (some "http://origin/") PushOutcome.raise [] "alice" "X").2
      = PutResult.serverError :=
  (put_local_write_push_advisory (some "http://origin/") PushOutcome.raise
    [] "alice" "X").2.2.2.2.mpr ⟨by decide, rfl⟩

/-- C7: when neither local credential is configured every request passes
the gate without credentials; when a credential pair is configured a
request passes exactly when it carries that pair, and otherwise receives
the 401 Basic challenge response. -/
theorem auth_gate :
    (∀ lu lp a, truthy lu = false → truthy lp = false → requires_auth lu lp a = none)
    ∧ (∀ (u p : String), u ≠ "" → p ≠ "" → ∀ a,
        requires_auth (some u) (some p) a
          = if a = some (u, p) then none else some authenticate) := by
  constructor
  · intro lu lp a h1 h2
    simp [requires_auth, h1, h2]
  · intro u p hu hp a
    have hu2 : truthy (some u) = true := by
      simp [truthy]
      exact hu
    have hp2 : truthy (some p) = true := by
      simp [truthy]
      exact hp
    cases a with
    | none => simp [requires_auth, hu2, hp2]
    | some pr =>
      obtain ⟨u2, p2⟩ := pr
      by_cases h3 : u2 = u <;> by_cases h4 : p2 = p <;>
        simp [requires_auth, hu2, hp2, check_auth, pyEq, h3, h4]

theorem auth_gate_witness :
    requires_auth none none none = none
    ∧ requires_auth (some "user") (some "pw") none = some authenticate
    ∧ requires_auth (some "user") (some "pw") (some ("user", "pw")) = none
    ∧ requires_auth (some "user") (some "pw") (some ("user", "wrong")) = some authenticate := by
  refine ⟨auth_gate.1 none none none rfl rfl, ?_, ?_, ?_⟩
  · have h := auth_gate.2 "user" "pw" (by decide) (by decide) none
    simpa using h
  · have h := auth_gate.2 "user" "pw" (by decide) (by decide) (some ("user", "pw"))
    simpa using h
  · have h := auth_gate.2 "user" "pw" (by decide) (by decide) (some ("user", "wrong"))
    rw [h]
    decide

/-- C10: the gate is bypassed exactly when both local credential values are
falsy; when exactly one of the two is configured the gate is enforced,
check_auth compares the supplied pair against both configured values
(comparison with the unset member never succeeds), and a request passes
exactly when both comparisons succeed. -/
theorem auth_half_configured (lu lp : Option String) :
    ((∀ a, requires_auth lu lp a = none) ↔ (truthy lu = false ∧ truthy lp = false))
    ∧ (truthy lu ≠ truthy lp →
        (∀ u p, check_auth lu lp u p = (pyEq u lu && pyEq p lp))
        ∧ (∀ a, requires_auth lu lp a = none ↔
            ∃ u p, a = some (u, p) ∧ pyEq u lu = true ∧ pyEq p lp = true)) := by
  constructor
  · constructor
    · intro h
      by_contra hc
      have hcond : (!truthy lu && !truthy lp) = false := by
        cases hlu : truthy lu <;> cases hlp : truthy lp <;> simp_all
      have h0 := h none
      simp [requires_auth, hcond] at h0
    · intro hc a
      simp [requires_auth, hc.1, hc.2]
  · intro hne
    have hcond : (!truthy lu && !truthy lp) = false := by
      cases hlu : truthy lu <;> cases hlp : truthy lp <;> simp_all
    constructor
    · intro u p
      simp [check_auth, hcond]
    · intro a
      cases a with
      | none =>
        simp [requires_auth, hcond]
      | some pr =>
        obtain ⟨u2, p2⟩ := pr
        have hgoal : requires_auth lu lp (some (u2, p2)) = none
            ↔ check_auth lu lp u2 p2 = true := by
          by_cases hca : check_auth lu lp u2 p2 = true <;>
            simp [requires_auth, hcond, hca]
        rw [hgoal]
        have hca2 : check_auth lu lp u2 p2 = (pyEq u2 lu && pyEq p2 lp) := by
          simp [check_auth, hcond]
        rw [hca2, Bool.and_eq_true]
        constructor
        · intro hb
          exact ⟨u2, p2, rfl, hb.1, hb.2⟩
        · rintro ⟨u, p, heq, h1, h2⟩
          injection heq with heq2
          rw [show u2 = u from congrArg Prod.fst heq2,
            show p2 = p from congrArg Prod.snd heq2]
          exact ⟨h1, h2⟩

theorem auth_half_configured_witness :
    check_auth (some "user") none "user" "anything"
      = (pyEq "user" (some "user") && pyEq "anything" (none : Option String)) :=
  (((auth_half_configured (some "user") none).2 (by decide)).1) "user" "anything"

theorem store_read_write_exists (s : Store) (k v nm p : String)
    (h : Store.read s nm = some p) :
    ∃ q, Store.read (Store.write s k v) nm = some q := by
  rw [store_read_write]
  by_cases hk : k = nm
  · exact ⟨v, by simp [hk]⟩
  · exact ⟨p, by simp [hk, h]⟩

theorem syncLoop_read_some (fetch : String → HttpResult) (hs : List String)
    (s : Store) (nm p : String) (h : Store.read s nm = some p) :
    ∃ q, Store.read (syncLoop fetch hs s) nm = some q := by
  induction hs generalizing s p with
  | nil => exact ⟨p, h⟩
  | cons href rest ih =>
    simp only [syncLoop]
    cases hf : fetch href with
    | err => exact ⟨p, h⟩
    | ok st txt =>
      dsimp only
      by_cases hst : st = 200
      · rw [if_pos hst]
        obtain ⟨q, hq⟩ := store_read_write_exists s (fileName href) txt nm p h
        exact ih _ _ hq
      · rw [if_neg hst]
        exact ih _ _ h

theorem syncLoop_read_not_listed (fetch : String → HttpResult) (hs : List String)
    (s : Store) (nm : String) (h : nm ∉ hs.map fileName) :
    Store.read (syncLoop fetch hs s) nm = Store.read s nm := by
  induction hs generalizing s with
  | nil => rfl
  | cons href rest ih =>
    simp only [List.map_cons, List.mem_cons] at h
    push_neg at h
    simp only [syncLoop]
    cases hf : fetch href with
    | err => rfl
    | ok st txt =>
      dsimp only
      by_cases hst : st = 200
      · rw [if_pos hst, ih _ h.2, store_read_write, if_neg (fun hh => h.1 hh.symm)]
      · rw [if_neg hst]
        exact ih _ h.2

theorem sync_remote_cases (url : Option String) (d : HttpResult)
    (fetch : String → HttpResult) (s : Store) :
    sync_remote url d fetch s = s
    ∨ ∃ status body, d = HttpResult.ok status body
        ∧ truthy url = true
        ∧ ¬ (status < 200 ∨ 300 ≤ status)
        ∧ sync_remote url d fetch s = syncLoop fetch (findHrefs body) s := by
  unfold sync_remote
  by_cases h1 : truthy url
  · rw [h1]
    simp only [Bool.not_true, Bool.false_eq_true, if_false]
    cases d with
    | err => exact Or.inl rfl
    | ok status body =>
      dsimp only
      by_cases h2 : status < 200 ∨ 300 ≤ status
      · rw [if_pos h2]
        exact Or.inl rfl
      · rw [if_neg h2]
        exact Or.inr ⟨status, body, rfl, by simp [h1], h2, rfl⟩
  · have h1f : truthy url = false := by
      cases htr : truthy url
      · rfl
      · exact absurd htr h1
    rw [h1f]
    simp

/-- C4: a sync run never deletes a store entry: every payload present
before the run is still present after it, both through sync_remote and
through the fetch loop run on any remote listing; and an entry whose file
name is not the file-name portion of any listed href keeps its exact
payload. The listing is universally quantified, so the preservation
property holds for whatever href sequence the discovery response denotes,
independently of the word-character class used when extracting it. -/
theorem sync_never_deletes (url : Option String) (d : HttpResult)
    (fetch : String → HttpResult) (s : Store) (nm p : String)
    (h : Store.read s nm = some p) :
    (∃ q, Store.read (sync_remote url d fetch s) nm = some q)
    ∧ (∀ hs : List String, ∃ q, Store.read (syncLoop fetch hs s) nm = some q)
    ∧ (∀ hs : List String, nm ∉ hs.map fileName →
        Store.read (syncLoop fetch hs s) nm = some p) := by
  refine ⟨?_, ?_, ?_⟩
  · rcases sync_remote_cases url d fetch s with heq | ⟨status, body, hd, htr, hst, heq⟩
    · exact ⟨p, by rw [heq]; exact h⟩
    · rw [heq]
      exact syncLoop_read_some fetch _ s nm p h
  · intro hs
    exact syncLoop_read_some fetch hs s nm p h
  · intro hs hnm
    rw [syncLoop_read_not_listed fetch hs s nm hnm]
    exact h

theorem sync_never_deletes_witness :
    Store.read (syncLoop (fun _ => HttpResult.ok 200 "B") ["/x/b.vcf"]
      [("a.vcf", "A")]) "a.vcf" = some "A" :=
  (sync_never_deletes (some "http://origin/") (HttpResult.ok 207 "<href>/x/b.vcf</href>")
    (fun _ => HttpResult.ok 200 "B") [("a.vcf", "A")] "a.vcf" "A" rfl).2.2
    ["/x/b.vcf"] (by decide)

theorem store_keys_write_mem (s : Store) (k v : String) (h : k ∈ Store.keys s) :
    Store.keys (Store.write s k v) = Store.keys s := by
  induction s with
  | nil => cases h
  | cons a t ih =>
    obtain ⟨ak, av⟩ := a
    by_cases h1 : ak = k
    · subst h1
      simp [Store.write, Store.keys]
    · have h2 : k ∈ Store.keys t := by
        rcases List.mem_cons.mp h with h3 | h3
        · exact absurd h3.symm h1
        · exact h3
      simp only [Store.write, if_neg h1, Store.keys, List.map_cons]
      rw [show List.map Prod.fst (Store.write t k v) = Store.keys t from ih h2]
      rfl

theorem store_keys_write_not_mem (s : Store) (k v : String) (h : k ∉ Store.keys s) :
    Store.keys (Store.write s k v) = Store.keys s ++ [k] := by
  induction s with
  | nil => rfl
  | cons a t ih =>
    obtain ⟨ak, av⟩ := a
    simp only [Store.keys, List.map_cons, List.mem_cons] at h
    push_neg at h
    have h1 : ¬ ak = k := fun hh => h.1 hh.symm
    simp only [Store.write, if_neg h1, Store.keys, List.map_cons, List.cons_append]
    rw [show List.map Prod.fst (Store.write t k v) = Store.keys t ++ [k] from ih h.2]
    rfl

theorem store_nodup_write (s : Store) (k v : String) (h : (Store.keys s).Nodup) :
    (Store.keys (Store.write s k v)).Nodup := by
  by_cases hm : k ∈ Store.keys s
  · rw [store_keys_write_mem s k v hm]
    exact h
  · rw [store_keys_write_not_mem s k v hm]
    simp [List.nodup_append, h, hm]

theorem read_applyWrites (W : List (String × String)) (s : Store) (nm : String) :
    Store.read (applyWrites W s) nm
      = match lastVal W nm with
        | some v => some v
        | none => Store.read s nm := by
  induction W generalizing s with
  | nil => rfl
  | cons a W ih =>
    obtain ⟨k, v⟩ := a
    show Store.read (applyWrites W (Store.write s k v)) nm = _
    rw [ih]
    dsimp only [lastVal]
    cases lastVal W nm with
    | some w => rfl
    | none =>
      dsimp only
      rw [store_read_write]
      by_cases hk : k = nm <;> simp [hk]

theorem mem_keys_write_self (s : Store) (k v : String) :
    k ∈ Store.keys (Store.write s k v) := by
  by_cases hm : k ∈ Store.keys s
  · rw [store_keys_write_mem s k v hm]
    exact hm
  · rw [store_keys_write_not_mem s k v hm]
    simp

theorem mem_keys_write_mono (s : Store) (k v nm : String) (h : nm ∈ Store.keys s) :
    nm ∈ Store.keys (Store.write s k v) := by
  by_cases hm : k ∈ Store.keys s
  · rw [store_keys_write_mem s k v hm]
    exact h
  · rw [store_keys_write_not_mem s k v hm]
    exact List.mem_append_left _ h

theorem mem_keys_applyWrites_mono (W : List (String × String)) (s : Store)
    (nm : String) (h : nm ∈ Store.keys s) :
    nm ∈ Store.keys (applyWrites W s) := by
  induction W generalizing s with
  | nil => exact h
  | cons a W ih => exact ih _ (mem_keys_write_mono s a.1 a.2 nm h)

theorem writes_mem_keys_applyWrites (W : List (String × String)) (s : Store) :
    ∀ kv ∈ W, kv.1 ∈ Store.keys (applyWrites W s) := by
  induction W generalizing s with
  | nil =>
    intro kv h
    cases h
  | cons a W ih =>
    intro kv h
    rcases List.mem_cons.mp h with h | h
    · subst h
      exact mem_keys_applyWrites_mono W _ _ (mem_keys_write_self s kv.1 kv.2)
    · exact ih _ kv h

theorem keys_applyWrites_fixed (W : List (String × String)) (s : Store)
    (h : ∀ kv ∈ W, kv.1 ∈ Store.keys s) :
    Store.keys (applyWrites W s) = Store.keys s := by
  induction W generalizing s with
  | nil => rfl
  | cons a W ih =>
    have h1 : a.1 ∈ Store.keys s := h a (List.mem_cons_self a W)
    have hk : Store.keys (Store.write s a.1 a.2) = Store.keys s :=
      store_keys_write_mem s a.1 a.2 h1
    calc Store.keys (applyWrites W (Store.write s a.1 a.2))
        = Store.keys (Store.write s a.1 a.2) := by
          refine ih _ (fun kv hkv => ?_)
          rw [hk]
          exact h kv (List.mem_cons_of_mem a hkv)
      _ = Store.keys s := hk

theorem nodup_keys_applyWrites (W : List (String × String)) (s : Store)
    (h : (Store.keys s).Nodup) :
    (Store.keys (applyWrites W s)).Nodup := by
  induction W generalizing s with
  | nil => exact h
  | cons a W ih => exact ih _ (store_nodup_write s a.1 a.2 h)

theorem store_ext (s : Store) : ∀ (t : Store),
    Store.keys s = Store.keys t → (Store.keys s).Nodup →
    (∀ nm, Store.read s nm = Store.read t nm) → s = t := by
  induction s with
  | nil =>
    intro t hk _ _
    cases t with
    | nil => rfl
    | cons b t2 => simp [Store.keys] at hk
  | cons a s2 ih =>
    intro t hk hd hr
    cases t with
    | nil => simp [Store.keys] at hk
    | cons b t2 =>
      obtain ⟨ak, av⟩ := a
      obtain ⟨bk, bv⟩ := b
      simp only [Store.keys, List.map_cons, List.cons.injEq] at hk
      obtain ⟨hk1, hk2⟩ := hk
      subst hk1
      have hv : av = bv := by
        have h0 := hr ak
        simp [Store.read] at h0
        exact h0
      subst hv
      simp only [Store.keys, List.map_cons, List.nodup_cons] at hd
      have hnm2 : ak ∉ List.map Prod.fst t2 := by
        rw [← hk2]
        exact hd.1
      congr 1
      refine ih t2 hk2 hd.2 (fun nm => ?_)
      by_cases hnm : nm = ak
      · subst hnm
        rw [store_read_not_mem s2 nm hd.1, store_read_not_mem t2 nm hnm2]
      · have h0 := hr nm
        have hne : ¬ ak = nm := fun hh => hnm hh.symm
        simpa [Store.read, hne] using h0

theorem applyWrites_idem (W : List (String × String)) (s : Store)
    (h : (Store.keys s).Nodup) :
    applyWrites W (applyWrites W s) = applyWrites W s := by
  apply store_ext
  · exact keys_applyWrites_fixed W _ (writes_mem_keys_applyWrites W s)
  · exact nodup_keys_applyWrites W _ (nodup_keys_applyWrites W s h)
  · intro nm
    cases hl : lastVal W nm <;> simp [read_applyWrites, hl]

theorem syncLoop_eq_applyWrites (fetch : String → HttpResult) (hs : List String)
    (s : Store) :
    syncLoop fetch hs s = applyWrites (syncWrites fetch hs) s := by
  induction hs generalizing s with
  | nil => rfl
  | cons href rest ih =>
    simp only [syncLoop, syncWrites]
    cases hf : fetch href with
    | err => rfl
    | ok st txt =>
      dsimp only
      by_cases hst : st = 200
      · rw [if_pos hst, if_pos hst]
        exact ih _
      · rw [if_neg hst, if_neg hst]
        exact ih _

/-- C5: with the same discovery response and the same fetched payloads,
running sync_remote twice in succession leaves the store in exactly the
state one run produces (the starting store, being a directory, has no
duplicate file names). -/
theorem sync_idempotent (url : Option String) (d : HttpResult)
    (fetch : String → HttpResult) (s : Store) (h : (Store.keys s).Nodup) :
    sync_remote url d fetch (sync_remote url d fetch s) = sync_remote url d fetch s := by
  rcases sync_remote_cases url d fetch s with heq | ⟨status, body, hd, htr, hst, heq⟩
  · rw [heq]
    exact heq
  · subst hd
    rw [heq]
    unfold sync_remote
    rw [htr]
    simp only [Bool.not_true, Bool.false_eq_true, if_false]
    rw [if_neg hst]
    simp only [syncLoop_eq_applyWrites]
    exact applyWrites_idem _ _ h

theorem sync_idempotent_witness :
    sync_remote (some "http://origin/") (HttpResult.ok 207 "<href>b.vcf</href>")
      (fun _ => HttpResult.ok 200 "B")
      (sync_remote (some "http://origin/") (HttpResult.ok 207 "<href>b.vcf</href>")
        (fun _ => HttpResult.ok 200 "B") [("a.vcf", "A")])
    = sync_remote (some "http://origin/") (HttpResult.ok 207 "<href>b.vcf</href>")
      (fun _ => HttpResult.ok 200 "B") [("a.vcf", "A")] :=
  sync_idempotent (some "http://origin/") (HttpResult.ok 207 "<href>b.vcf</href>")
    (fun _ => HttpResult.ok 200 "B") [("a.vcf", "A")] (by decide)

theorem matchHrefAtW_suffix (w : Char → Bool) (cs : List Char)
    (pr : String × List Char) (h : matchHrefAtW w cs = some pr) :
    endsWithVcf pr.1 = true ∧ 4 < pr.1.length := by
  unfold matchHrefAtW at h
  split at h
  · cases h
  · split at h
    · split at h
      · cases h
      · dsimp only at h
        split at h
        · split at h
          · injection h with h2
            rw [← h2]
            simp_all [endsWithVcf, String.length]
          · cases h
        · cases h
    · cases h

theorem scanHrefsW_ends (w : Char → Bool) (fuel : Nat) : ∀ (cs : List Char) (h : String),
    h ∈ scanHrefsW w fuel cs → endsWithVcf h = true ∧ 4 < h.length := by
  induction fuel with
  | zero =>
    intro cs hstr hh
    simp [scanHrefsW] at hh
  | succ fuel ih =>
    intro cs hstr hh
    cases cs with
    | nil => simp [scanHrefsW] at hh
    | cons c rest =>
      cases hm : matchHrefAtW w (c :: rest) with
      | some pr =>
        simp only [scanHrefsW, hm] at hh
        rcases List.mem_cons.mp hh with h1 | h1
        · subst h1
          exact matchHrefAtW_suffix w _ _ hm
        · exact ih _ _ h1
      | none =>
        simp only [scanHrefsW, hm] at hh
        exact ih _ _ hh

theorem stripLit_mem : ∀ (l cs r : List Char), stripLit l cs = some r → ∀ x ∈ r, x ∈ cs := by
  intro l
  induction l with
  | nil =>
    intro cs r h x hx
    injection h with h2
    rw [← h2] at hx
    exact hx
  | cons a l ih =>
    intro cs r h x hx
    cases cs with
    | nil => cases h
    | cons c cs2 =>
      unfold stripLit at h
      by_cases hc : c = a
      · rw [if_pos hc] at h
        exact List.mem_cons_of_mem c (ih cs2 r h x hx)
      · rw [if_neg hc] at h
        cases h

theorem takeWordW_snd_mem (w : Char → Bool) : ∀ (cs : List Char),
    ∀ x ∈ (takeWordW w cs).2, x ∈ cs := by
  intro cs
  induction cs with
  | nil =>
    intro x hx
    simp [takeWordW] at hx
  | cons c cs ih =>
    intro x hx
    by_cases hw : w c
    · simp only [takeWordW, if_pos hw] at hx
      exact List.mem_cons_of_mem c (ih x hx)
    · simp only [takeWordW, if_neg hw] at hx
      exact hx

theorem takeNonLt_snd_mem : ∀ (cs : List Char), ∀ x ∈ (takeNonLt cs).2, x ∈ cs := by
  intro cs
  induction cs with
  | nil =>
    intro x hx
    simp [takeNonLt] at hx
  | cons c cs ih =>
    intro x hx
    by_cases hc : c = '<'
    · simp only [takeNonLt, if_pos hc] at hx
      exact hx
    · simp only [takeNonLt, if_neg hc] at hx
      exact List.mem_cons_of_mem c (ih x hx)

theorem matchTagW_mem (w : Char → Bool) (cs r : List Char) (h : matchTagW w cs = some r) :
    ∀ x ∈ r, x ∈ cs := by
  unfold matchTagW at h
  dsimp only at h
  split at h
  · rename_i l1 r0 hw1 hw2
    split at h
    · rename_i rest hsl
      injection h with h2
      intro x hx
      rw [← h2] at hx
      have hx2 : x ∈ r0 := stripLit_mem hrefGt r0 rest hsl x hx
      have hx3 : x ∈ (takeWordW w cs).2 := by
        rw [hw2]
        exact List.mem_cons_of_mem _ hx2
      exact takeWordW_snd_mem w cs x hx3
    · exact stripLit_mem hrefGt cs r h
  · exact stripLit_mem hrefGt cs r h

theorem matchCloseW_mem (w : Char → Bool) : ∀ (cs r : List Char),
    matchCloseW w cs = some r → ∀ x ∈ r, x ∈ cs := by
  intro cs r h
  cases cs with
  | nil => cases h
  | cons c cs2 =>
    cases cs2 with
    | nil => cases h
    | cons c2 r0 =>
      unfold matchCloseW at h
      dsimp only at h
      by_cases hc : c = '<' ∧ c2 = '/'
      · rw [if_pos hc] at h
        intro x hx
        exact List.mem_cons_of_mem c (List.mem_cons_of_mem c2 (matchTagW_mem w r0 r h x hx))
      · rw [if_neg hc] at h
        cases h

theorem matchHrefAtW_mem (w : Char → Bool) (cs : List Char) (pr : String × List Char)
    (h : matchHrefAtW w cs = some pr) : ∀ x ∈ pr.2, x ∈ cs := by
  cases cs with
  | nil => cases h
  | cons c r =>
    unfold matchHrefAtW at h
    dsimp only at h
    by_cases hc : c = '<'
    · rw [if_pos hc] at h
      cases hmt : matchTagW w r with
      | none =>
        rw [hmt] at h
        cases h
      | some afterOpen =>
        rw [hmt] at h
        dsimp only at h
        by_cases hcond : 4 < (takeNonLt afterOpen).1.length
            ∧ vcfSuffix.isSuffixOf (takeNonLt afterOpen).1
        · rw [if_pos hcond] at h
          cases hmc : matchCloseW w (takeNonLt afterOpen).2 with
          | none =>
            rw [hmc] at h
            cases h
          | some rest =>
            rw [hmc] at h
            injection h with h2
            intro x hx
            have hx1 : x ∈ rest := by
              rw [← h2] at hx
              exact hx
            have hx2 : x ∈ (takeNonLt afterOpen).2 :=
              matchCloseW_mem w _ rest hmc x hx1
            have hx3 : x ∈ afterOpen := takeNonLt_snd_mem afterOpen x hx2
            exact List.mem_cons_of_mem c (matchTagW_mem w r afterOpen hmt x hx3)
        · rw [if_neg hcond] at h
          cases h
    · rw [if_neg hc] at h
      cases h

theorem takeWordW_congr (w w2 : Char → Bool) : ∀ (cs : List Char),
    (∀ c ∈ cs, w c = w2 c) → takeWordW w cs = takeWordW w2 cs := by
  intro cs
  induction cs with
  | nil =>
    intro _
    rfl
  | cons c cs ih =>
    intro hag
    unfold takeWordW
    rw [hag c (List.mem_cons_self c cs)]
    rw [ih (fun x hx => hag x (List.mem_cons_of_mem c hx))]

theorem matchTagW_congr (w w2 : Char → Bool) (cs : List Char)
    (hag : ∀ c ∈ cs, w c = w2 c) : matchTagW w cs = matchTagW w2 cs := by
  unfold matchTagW
  rw [takeWordW_congr w w2 cs hag]

theorem matchCloseW_congr (w w2 : Char → Bool) : ∀ (cs : List Char),
    (∀ c ∈ cs, w c = w2 c) → matchCloseW w cs = matchCloseW w2 cs := by
  intro cs hag
  cases cs with
  | nil => rfl
  | cons c cs2 =>
    cases cs2 with
    | nil => rfl
    | cons c2 r =>
      unfold matchCloseW
      dsimp only
      by_cases hc : c = '<' ∧ c2 = '/'
      · rw [if_pos hc, if_pos hc]
        exact matchTagW_congr w w2 r
          (fun x hx => hag x (List.mem_cons_of_mem c (List.mem_cons_of_mem c2 hx)))
      · rw [if_neg hc, if_neg hc]

theorem matchHrefAtW_congr (w w2 : Char → Bool) (cs : List Char)
    (hag : ∀ c ∈ cs, w c = w2 c) : matchHrefAtW w cs = matchHrefAtW w2 cs := by
  cases cs with
  | nil => rfl
  | cons c r =>
    unfold matchHrefAtW
    dsimp only
    by_cases hc : c = '<'
    · rw [if_pos hc, if_pos hc]
      have hagr : ∀ x ∈ r, w x = w2 x := fun x hx => hag x (List.mem_cons_of_mem c hx)
      rw [matchTagW_congr w w2 r hagr]
      cases hmt : matchTagW w2 r with
      | none => rfl
      | some afterOpen =>
        dsimp only
        have hmem : ∀ x ∈ afterOpen, x ∈ r := matchTagW_mem w2 r afterOpen hmt
        have hp2 : ∀ x ∈ (takeNonLt afterOpen).2, w x = w2 x :=
          fun x hx => hagr x (hmem x (takeNonLt_snd_mem afterOpen x hx))
        rw [matchCloseW_congr w w2 _ hp2]
    · rw [if_neg hc, if_neg hc]

theorem scanHrefsW_congr (w w2 : Char → Bool) : ∀ (fuel : Nat) (cs : List Char),
    (∀ c ∈ cs, w c = w2 c) → scanHrefsW w fuel cs = scanHrefsW w2 fuel cs := by
  intro fuel
  induction fuel with
  | zero =>
    intro cs hag
    rfl
  | succ fuel ih =>
    intro cs hag
    cases cs with
    | nil => rfl
    | cons c rest =>
      unfold scanHrefsW
      dsimp only
      rw [matchHrefAtW_congr w w2 (c :: rest) hag]
      cases hm : matchHrefAtW w2 (c :: rest) with
      | none =>
        dsimp only
        exact ih rest (fun x hx => hag x (List.mem_cons_of_mem c hx))
      | some pr =>
        dsimp only
        rw [ih pr.2 (fun x hx => hag x (matchHrefAtW_mem w2 (c :: rest) pr hm x hx))]

theorem findHrefsW_ascii (w : Char → Bool) (body : String)
    (hw : ∀ c : Char, c.toNat < 128 → w c = isWordChar c)
    (hb : ∀ c ∈ body.data, c.toNat < 128) :
    findHrefsW w body = findHrefs body := by
  unfold findHrefs findHrefsW
  exact scanHrefsW_congr w isWordChar body.data.length body.data
    (fun c hc => hw c (hb c hc))

theorem syncLoop_eq_foldl (fetch : String → HttpResult) (hs : List String)
    (s : Store) :
    syncLoop fetch hs s = List.foldl (writeOn200 fetch) s (processedHrefs fetch hs) := by
  induction hs generalizing s with
  | nil => rfl
  | cons href rest ih =>
    simp only [syncLoop, processedHrefs, List.takeWhile]
    cases hf : fetch href with
    | err => simp [hf]
    | ok st txt =>
      simp only [hf]
      rw [List.foldl_cons]
      have hw : writeOn200 fetch s href
          = if st = 200 then Store.write s (fileName href) txt else s := by
        simp [writeOn200, hf]
      rw [hw]
      by_cases hst : st = 200
      · rw [if_pos hst, if_pos hst]
        exact ih _
      · rw [if_neg hst, if_neg hst]
        exact ih _

/-- C6: with an origin configured and a 2xx discovery response, sync_remote
processes the extracted hrefs in listing order through the fetch loop;
for every remote listing — in particular whatever href sequence the origin
response denotes — the loop writes each fetched payload keyed by the
file-name portion of the href exactly when the fetch status is 200 and
aborts the remainder at a transport error while keeping the earlier
writes. Every href the regex
extracts — under every word-character class for \w, hence under Python's
Unicode-aware one — ends in ".vcf" with at least one character of stem;
on a body made of ASCII characters the extraction does not depend on the
class at all, so the ASCII instance the model uses is exact there; and a
concrete body shows a vendor-namespaced href accepted, a non-.vcf href
skipped, and a bare ".vcf" href (empty stem) rejected. -/
theorem sync_processing (url : String) (hu : url ≠ "") (status : Nat)
    (h2 : 200 ≤ status) (h3 : status < 300) (body : String)
    (fetch : String → HttpResult) (s : Store) :
    (∀ hs : List String, syncLoop fetch hs s
        = List.foldl (writeOn200 fetch) s (processedHrefs fetch hs))
    ∧ sync_remote (some url) (HttpResult.ok status body) fetch s
      = List.foldl (writeOn200 fetch) s (processedHrefs fetch (findHrefs body))
    ∧ (∀ (w : Char → Bool) (b hr : String), hr ∈ findHrefsW w b →
        endsWithVcf hr = true ∧ 4 < hr.length)
    ∧ (∀ (w : Char → Bool) (b : String),
        (∀ c : Char, c.toNat < 128 → w c = isWordChar c) →
        (∀ c ∈ b.data, c.toNat < 128) →
        findHrefsW w b = findHrefs b)
    ∧ findHrefs "<d:href>/ab/x.vcf</d:href><href>/y.ics</href><href>.vcf</href><href>z.vcf</href>"
      = ["/ab/x.vcf", "z.vcf"] := by
  refine ⟨?_, ?_, ?_, ?_, ?_⟩
  · intro hs
    exact syncLoop_eq_foldl fetch hs s
  · have htr : truthy (some url) = true := by
      simp [truthy]
      exact hu
    unfold sync_remote
    rw [htr]
    simp only [Bool.not_true, Bool.false_eq_true, if_false]
    rw [if_neg (by omega : ¬(status < 200 ∨ 300 ≤ status))]
    exact syncLoop_eq_foldl fetch _ s
  · intro w b hr hh
    exact scanHrefsW_ends w _ _ hr hh
  · intro w b hw hb
    exact findHrefsW_ascii w b hw hb
  · decide

theorem sync_processing_witness :
    sync_remote (some "http://origin/") (HttpResult.ok 207 "<href>a.vcf</href>")
      (fun _ => HttpResult.ok 200 "P") []
      = List.foldl (writeOn200 (fun _ => HttpResult.ok 200 "P")) []
          (processedHrefs (fun _ => HttpResult.ok 200 "P")
            (findHrefs "<href>a.vcf</href>")) :=
  (sync_processing "http://origin/" (by decide) 207 (by decide) (by decide)
    "<href>a.vcf</href>" (fun _ => HttpResult.ok 200 "P") []).2.1

theorem listingEntry_inj (a b : String) (h : listingEntry a = listingEntry b) : a = b := by
  unfold listingEntry at h
  have hd := congrArg String.data h
  simp only [String.data_append] at hd
  exact String.ext (List.append_cancel_left (List.append_cancel_right hd))

theorem endsWithVcf_append (s : String) : endsWithVcf (s ++ ".vcf") = true := by
  unfold endsWithVcf
  rw [String.data_append]
  have h1 : String.data ".vcf" = vcfSuffix := rfl
  rw [h1]
  simp only [List.isSuffixOf_iff_suffix]
  exact List.suffix_append _ _

theorem count_listing_entries (s : Store) (name : String)
    (hsuf : endsWithVcf name = true) :
    List.count (listingEntry name) (listing_entries s)
      = List.count name (Store.keys s) := by
  induction s with
  | nil => rfl
  | cons a t ih =>
    obtain ⟨ak, av⟩ := a
    by_cases hv : endsWithVcf ak = true
    · have hle : listing_entries ((ak, av) :: t) = listingEntry ak :: listing_entries t := by
        simp [listing_entries, List.filter_cons, hv]
      have hke : Store.keys ((ak, av) :: t) = ak :: Store.keys t := rfl
      rw [hle, hke, List.count_cons, List.count_cons]
      by_cases heq : ak = name
      · subst heq
        simp [ih]
      · have h1 : (listingEntry ak == listingEntry name) = false := by
          simp only [beq_eq_false_iff_ne, ne_eq]
          intro hcon
          exact heq (listingEntry_inj _ _ hcon)
        have h2 : (ak == name) = false := by
          simp [heq]
        rw [h1, h2]
        simp [ih]
    · have hle : listing_entries ((ak, av) :: t) = listing_entries t := by
        simp [listing_entries, List.filter_cons, hv]
      have hke : Store.keys ((ak, av) :: t) = ak :: Store.keys t := rfl
      rw [hle, hke, List.count_cons]
      have heq : (ak == name) = false := by
        simp only [beq_eq_false_iff_ne, ne_eq]
        intro hcon
        subst hcon
        exact hv hsuf
      rw [heq]
      simp [ih]

/-- C9: the depth-1 listing on the root is the 207 multi-status response
whose body holds one response element per .vcf file of the store: for
every identifier, the count of its listing entry equals the count of its
file name among the store keys (no stored identifier is omitted, no entry
appears for an absent one), and in a duplicate-free store each present
identifier yields exactly one entry. -/
theorem listing_matches_store (s : Store) :
    propfind_root s = (207, build_listing s)
    ∧ (∀ uid, List.count (listingEntry (uid ++ ".vcf")) (listing_entries s)
        = List.count (uid ++ ".vcf") (Store.keys s))
    ∧ ((Store.keys s).Nodup → ∀ uid, (uid ++ ".vcf") ∈ Store.keys s →
        List.count (listingEntry (uid ++ ".vcf")) (listing_entries s) = 1) := by
  refine ⟨rfl, ?_, ?_⟩
  · intro uid
    exact count_listing_entries s _ (endsWithVcf_append uid)
  · intro hnd uid hmem
    rw [count_listing_entries s _ (endsWithVcf_append uid)]
    have h1 := List.nodup_iff_count_le_one.mp hnd (uid ++ ".vcf")
    have h2 := List.count_pos_iff.mpr hmem
    omega

theorem listing_matches_store_witness :
    List.count (listingEntry ("alice" ++ ".vcf"))
      (listing_entries [("alice.vcf", "A"), ("bob.vcf", "B")]) = 1 :=
  (listing_matches_store [("alice.vcf", "A"), ("bob.vcf", "B")]).2.2 (by decide)
    "alice" (by decide)
